import Mathlib

/-!
# Verification of the motion simulation (`motionsim.cpp`)

Shallow embedding of the Monte-Carlo water-molecule diffusion simulation.
Device `float` arithmetic is modelled exactly over `ℚ`; device arrays
(`a_particleX`, `a_particleY`, `a_map`, `a_randomX`, `a_randomY`) are modelled
as total functions inside a kernel state record, and the GPU grid of threads is
modelled as a list of thread indices executed in an arbitrary order (so that
independence of the schedule can be stated and proved).
-/

namespace Motionsim

/-- C `trunc`: rounding toward zero (`⌈q⌉` for negative arguments, `⌊q⌋`
otherwise). -/
def trunc (q : ℚ) : ℤ :=
  if q < 0 then ⌈q⌉ else ⌊q⌋

/-- The kernel's transformation of a scaled random number into a small
displacement: `(float)randnum / 1000.0f - 0.0495` (`0.0495 = 99/2000`). -/
def displacement (v : ℕ) : ℚ :=
  (v : ℚ) / 1000 - 99 / 2000

/-- Host table generation, X component: `randomX[i] = rand() % scale` with
`scale = 100`; the `rand()` call stream after `srand(17)` is abstracted as
`stream`, consumed alternately (X draw then Y draw for each index `i`). -/
def randomX (stream : ℕ → ℕ) (i : ℕ) : ℕ :=
  stream (2 * i) % 100

/-- Host table generation, Y component (the second `rand()` call of
iteration `i` of the fill loop). -/
def randomY (stream : ℕ → ℕ) (i : ℕ) : ℕ :=
  stream (2 * i + 1) % 100

/-- Flat index into the map array: `ii * grid_size * grid_size +
iY * grid_size + iX` (the map is organized as (particle, y, x)). -/
def enc (G : ℕ) (ii : ℕ) (iY iX : ℤ) : ℤ :=
  (ii : ℤ) * G * G + iY * G + iX

/-- One trajectory step at position `(x, y)` with displacement `(dx, dy)`:
returns the new position together with the cell `(iY, iX)` whose counter is
incremented, if any.  Mirrors the kernel body: `dX = px - trunc px` is the
fractional offset via truncation, `iX = ⌊px⌋` the cell index via floor, the
guard is `px < G ∧ py < G ∧ 0 ≤ px ∧ 0 ≤ py`, and the occupancy test is
`dX*dX + dY*dY ≤ r*r`. -/
def trajStep (G : ℕ) (r dx dy x y : ℚ) : (ℚ × ℚ) × Option (ℤ × ℤ) :=
  let px := x + dx
  let py := y + dy
  let dX := px - (trunc px : ℚ)
  let dY := py - (trunc py : ℚ)
  let iX := ⌊px⌋
  let iY := ⌊py⌋
  ((px, py),
    if px < (G : ℚ) ∧ py < (G : ℚ) ∧ 0 ≤ px ∧ 0 ≤ py then
      if dX * dX + dY * dY ≤ r * r then some (iY, iX) else none
    else none)

/-- Device-memory state of the kernel launch: particle positions, the
per-particle map array (flat, indexed by `enc`), and the two read-only
random tables. -/
@[ext]
structure KState where
  particleX : ℕ → ℚ
  particleY : ℕ → ℚ
  map : ℤ → ℕ
  randX : ℕ → ℕ
  randY : ℕ → ℕ

/-- One loop iteration of thread `ii` with an explicit displacement pair `d`:
update this particle's position and, when the new position passes the in-grid
and occupancy tests, increment this particle's map cell. -/
def simStepD (G : ℕ) (r : ℚ) (ii : ℕ) (d : ℚ × ℚ) (s : KState) : KState :=
  let t := trajStep G r d.1 d.2 (s.particleX ii) (s.particleY ii)
  { s with
    particleX := Function.update s.particleX ii t.1.1
    particleY := Function.update s.particleY ii t.1.2
    map :=
      match t.2 with
      | none => s.map
      | some c =>
          Function.update s.map (enc G ii c.1 c.2)
            (s.map (enc G ii c.1 c.2) + 1) }

/-- The displacement pair thread `ii` consumes at loop iteration `iter`:
`randnumX = a_randomX[iter * n_particles + ii]` (and Y alike), both mapped
through `displacement`. -/
def dispSeqOf (randX randY : ℕ → ℕ) (nP ii iter : ℕ) : ℚ × ℚ :=
  (displacement (randX (iter * nP + ii)),
   displacement (randY (iter * nP + ii)))

/-- One loop iteration of thread `ii` at iteration counter `iter`, reading the
random tables from the state. -/
def simStep (G : ℕ) (r : ℚ) (nP ii iter : ℕ) (s : KState) : KState :=
  simStepD G r ii (dispSeqOf s.randX s.randY nP ii iter) s

/-- The whole `while (iter < nIterations)` loop of thread `ii`, for an
explicit per-iteration displacement sequence `d`. -/
def simRunD (G : ℕ) (r : ℚ) (ii : ℕ) (d : ℕ → ℚ × ℚ) : ℕ → KState → KState
  | 0, s => s
  | n + 1, s => simStepD G r ii (d n) (simRunD G r ii d n s)

/-- The whole loop of thread `ii`, reading the tables from the state. -/
def simRun (G : ℕ) (r : ℚ) (nP ii : ℕ) : ℕ → KState → KState
  | 0, s => s
  | n + 1, s => simStep G r nP ii n (simRun G r nP ii n s)

/-- One GPU thread of the `Simulation` kernel: a thread whose index is at
least `n_particles` returns immediately, the others run the iteration loop. -/
def threadRun (G : ℕ) (r : ℚ) (nP nIter ii : ℕ) (s : KState) : KState :=
  if nP ≤ ii then s else simRun G r nP ii nIter s

/-- The kernel launch, executing the threads of `order` sequentially; the
schedule `order` models the (unspecified) degree and order of parallelism. -/
def kernelRun (G : ℕ) (r : ℚ) (nP nIter : ℕ) (order : List ℕ)
    (s : KState) : KState :=
  order.foldl (fun s ii => threadRun G r nP nIter ii s) s

/-- The `Simulation` kernel: every thread index below `n_particles` runs. -/
def Simulation (G : ℕ) (r : ℚ) (nP nIter : ℕ) (s : KState) : KState :=
  kernelRun G r nP nIter (List.range nP) s

/-- Reduction step for one particle `i`: for every grid cell `(y, x)`, add
`map[i*G*G + y*G + x]` into `grid[y][x]` when that private counter is
positive (the code's `> 0` guard). -/
def reduceParticle (G : ℕ) (m : ℤ → ℕ) (i : ℕ) (grid : ℕ → ℕ → ℕ) :
    ℕ → ℕ → ℕ :=
  fun y x =>
    if y < G ∧ x < G ∧ 0 < m (enc G i (y : ℤ) (x : ℤ)) then
      grid y x + m (enc G i (y : ℤ) (x : ℤ))
    else grid y x

/-- Reduction step without the `> 0` guard: visits every cell. -/
def reduceParticleAll (G : ℕ) (m : ℤ → ℕ) (i : ℕ) (grid : ℕ → ℕ → ℕ) :
    ℕ → ℕ → ℕ :=
  fun y x =>
    if y < G ∧ x < G then grid y x + m (enc G i (y : ℤ) (x : ℤ))
    else grid y x

/-- The reduction loop over a list of particle indices. -/
def reduceRun (G : ℕ) (m : ℤ → ℕ) (order : List ℕ) (grid : ℕ → ℕ → ℕ) :
    ℕ → ℕ → ℕ :=
  order.foldl (fun g i => reduceParticle G m i g) grid

/-- The reduction as written in `motion_device`: particles `0, …, nP-1` in
order. -/
def reduceAll (G : ℕ) (m : ℤ → ℕ) (nP : ℕ) (grid : ℕ → ℕ → ℕ) :
    ℕ → ℕ → ℕ :=
  reduceRun G m (List.range nP) grid

/-- Initial device state as set up by `main`: every particle starts at
`(10, 10)`, the map array is zero-filled, and the tables are as generated by
the host loop. -/
def initState (randX randY : ℕ → ℕ) : KState :=
  { particleX := fun _ => 10
    particleY := fun _ => 10
    map := fun _ => 0
    randX := randX
    randY := randY }

/-- The whole pipeline of `motion_device` (minus device bookkeeping): fill
the tables from the seeded `rand()` stream, run the kernel, reduce the map
into the zero-initialized output grid. -/
def motionDevice (G nP nIter : ℕ) (r : ℚ) (stream : ℕ → ℕ) : ℕ → ℕ → ℕ :=
  reduceAll G
    (Simulation G r nP nIter (initState (randomX stream) (randomY stream))).map
    nP (fun _ _ => 0)

/-- The position of a particle after `n` trajectory steps driven by the
displacement sequence `d`, starting from `p`. -/
def posIter (G : ℕ) (r : ℚ) (d : ℕ → ℚ × ℚ) : ℕ → ℚ × ℚ → ℚ × ℚ
  | 0, p => p
  | n + 1, p =>
      (trajStep G r (d n).1 (d n).2 (posIter G r d n p).1
        (posIter G r d n p).2).1

/-- The contribution of one trajectory step's occupancy decision to the map
cell of flat index `j` of particle `ii`: 1 on a hit at that cell, else 0. -/
def hitInc (G ii : ℕ) (o : Option (ℤ × ℤ)) (j : ℤ) : ℕ :=
  match o with
  | none => 0
  | some c => if enc G ii c.1 c.2 = j then 1 else 0

/-- The number of increments particle `ii` performs at flat map index `j`
during its first `n` trajectory steps, starting from position `p`. -/
def hitCount (G : ℕ) (r : ℚ) (ii : ℕ) (d : ℕ → ℚ × ℚ) : ℕ → ℚ × ℚ → ℤ → ℕ
  | 0, _, _ => 0
  | n + 1, p, j =>
      hitCount G r ii d n p j +
        hitInc G ii (trajStep G r (d n).1 (d n).2 (posIter G r d n p).1
          (posIter G r d n p).2).2 j

/-- Final position reached by thread `ii` of the kernel, as a function of
the launch state. -/
def finalPos (G : ℕ) (r : ℚ) (nP nIter : ℕ) (s : KState) (ii : ℕ) : ℚ × ℚ :=
  posIter G r (dispSeqOf s.randX s.randY nP ii) nIter
    (s.particleX ii, s.particleY ii)

/-- Number of increments thread `ii` of the kernel performs at flat map
index `j` (zero for the threads that return early). -/
def particleHits (G : ℕ) (r : ℚ) (nP nIter : ℕ) (s : KState) (ii : ℕ)
    (j : ℤ) : ℕ :=
  if ii < nP then
    hitCount G r ii (dispSeqOf s.randX s.randY nP ii) nIter
      (s.particleX ii, s.particleY ii) j
  else 0

/-- The reduction loop without the `> 0` guard, over a list of particle
indices. -/
def reduceRunAll (G : ℕ) (m : ℤ → ℕ) (order : List ℕ) (grid : ℕ → ℕ → ℕ) :
    ℕ → ℕ → ℕ :=
  order.foldl (fun g i => reduceParticleAll G m i g) grid

/-- A concrete single-particle launch state: position `(10, 10)`, zero map,
both raw draws equal to 50 (displacement `+0.0005` on each axis). -/
def stateHit : KState :=
  { particleX := fun _ => 10
    particleY := fun _ => 10
    map := fun _ => 0
    randX := fun _ => 50
    randY := fun _ => 50 }

/-- A concrete single-particle launch state: position `(20.9505, 10)`, zero
map, x-draw 99 (displacement `+0.0495`), which lands x exactly on `21`. -/
def stateEdge : KState :=
  { particleX := fun _ => 41901 / 2000
    particleY := fun _ => 10
    map := fun _ => 0
    randX := fun _ => 99
    randY := fun _ => 50 }

/-! ## Basic characterizations -/

lemma trunc_of_nonneg {q : ℚ} (h : 0 ≤ q) : trunc q = ⌊q⌋ := by
  rw [trunc, if_neg (not_lt.mpr h)]

lemma trunc_of_neg {q : ℚ} (h : q < 0) : trunc q = ⌈q⌉ := by
  rw [trunc, if_pos h]

lemma trajStep_fst (G : ℕ) (r dx dy x y : ℚ) :
    (trajStep G r dx dy x y).1 = (x + dx, y + dy) := rfl

lemma trajStep_snd (G : ℕ) (r dx dy x y : ℚ) :
    (trajStep G r dx dy x y).2 =
      if (x + dx < (G : ℚ) ∧ y + dy < (G : ℚ) ∧ 0 ≤ x + dx ∧ 0 ≤ y + dy) ∧
          (x + dx - (trunc (x + dx) : ℚ)) * (x + dx - (trunc (x + dx) : ℚ)) +
            (y + dy - (trunc (y + dy) : ℚ)) * (y + dy - (trunc (y + dy) : ℚ)) ≤
            r * r
      then some (⌊y + dy⌋, ⌊x + dx⌋) else none := by
  show (if _ then if _ then _ else _ else _) = _
  by_cases h1 : x + dx < (G : ℚ) ∧ y + dy < (G : ℚ) ∧ 0 ≤ x + dx ∧ 0 ≤ y + dy
  · by_cases h2 :
      (x + dx - (trunc (x + dx) : ℚ)) * (x + dx - (trunc (x + dx) : ℚ)) +
        (y + dy - (trunc (y + dy) : ℚ)) * (y + dy - (trunc (y + dy) : ℚ)) ≤ r * r
    · simp [h1, h2]
    · simp [h1, h2]
  · simp [h1]

/-- When a step reports a hit, the reported cell lies inside the grid. -/
lemma trajStep_hit_bounds {G : ℕ} {r dx dy x y : ℚ} {c : ℤ × ℤ}
    (h : (trajStep G r dx dy x y).2 = some c) :
    0 ≤ c.1 ∧ c.1 < (G : ℤ) ∧ 0 ≤ c.2 ∧ c.2 < (G : ℤ) := by
  rw [trajStep_snd] at h
  by_cases hc : (x + dx < (G : ℚ) ∧ y + dy < (G : ℚ) ∧ 0 ≤ x + dx ∧ 0 ≤ y + dy) ∧
      (x + dx - (trunc (x + dx) : ℚ)) * (x + dx - (trunc (x + dx) : ℚ)) +
        (y + dy - (trunc (y + dy) : ℚ)) * (y + dy - (trunc (y + dy) : ℚ)) ≤ r * r
  · rw [if_pos hc] at h
    obtain ⟨⟨hxG, hyG, hx0, hy0⟩, -⟩ := hc
    injection h with h2
    subst h2
    refine ⟨Int.floor_nonneg.mpr hy0, ?_, Int.floor_nonneg.mpr hx0, ?_⟩
    · exact Int.floor_lt.mpr (by exact_mod_cast hyG)
    · exact Int.floor_lt.mpr (by exact_mod_cast hxG)
  · rw [if_neg hc] at h
    exact absurd h (by simp)

lemma simStepD_char (G : ℕ) (r : ℚ) (ii : ℕ) (d : ℚ × ℚ) (s : KState) :
    simStepD G r ii d s =
      { particleX := Function.update s.particleX ii
          (s.particleX ii + d.1)
        particleY := Function.update s.particleY ii
          (s.particleY ii + d.2)
        map := fun j => s.map j +
          hitInc G ii
            (trajStep G r d.1 d.2 (s.particleX ii) (s.particleY ii)).2 j
        randX := s.randX
        randY := s.randY } := by
  have hfst :
      (trajStep G r d.1 d.2 (s.particleX ii) (s.particleY ii)).1 =
        (s.particleX ii + d.1, s.particleY ii + d.2) := trajStep_fst ..
  rcases hsnd : (trajStep G r d.1 d.2 (s.particleX ii) (s.particleY ii)).2 with
      _ | c
  · ext j
    · simp [simStepD, hfst]
    · simp [simStepD, hfst]
    · simp [simStepD, hsnd, hitInc]
    · rfl
    · rfl
  · ext j
    · simp [simStepD, hfst]
    · simp [simStepD, hfst]
    · show (match (trajStep G r d.1 d.2 (s.particleX ii) (s.particleY ii)).2 with
        | none => s.map
        | some c =>
            Function.update s.map (enc G ii c.1 c.2)
              (s.map (enc G ii c.1 c.2) + 1)) j = _
      rw [hsnd]
      by_cases hj : enc G ii c.1 c.2 = j
      · subst hj; simp [hitInc, hsnd]
      · simp [Function.update_apply, Ne.symm hj, hj, hitInc, hsnd]
    · rfl
    · rfl

lemma posIter_succ (G : ℕ) (r : ℚ) (d : ℕ → ℚ × ℚ) (n : ℕ) (p : ℚ × ℚ) :
    posIter G r d (n + 1) p =
      ((posIter G r d n p).1 + (d n).1, (posIter G r d n p).2 + (d n).2) := by
  show (trajStep G r (d n).1 (d n).2 (posIter G r d n p).1
      (posIter G r d n p).2).1 = _
  rw [trajStep_fst]

/-- Running the loop of thread `ii` only rewrites `particleX ii`,
`particleY ii` and this particle's own hit counts on top of the incoming
state. -/
lemma simRunD_char (G : ℕ) (r : ℚ) (ii : ℕ) (d : ℕ → ℚ × ℚ) (n : ℕ)
    (s : KState) :
    simRunD G r ii d n s =
      { particleX := Function.update s.particleX ii
          (posIter G r d n (s.particleX ii, s.particleY ii)).1
        particleY := Function.update s.particleY ii
          (posIter G r d n (s.particleX ii, s.particleY ii)).2
        map := fun j =>
          s.map j + hitCount G r ii d n (s.particleX ii, s.particleY ii) j
        randX := s.randX
        randY := s.randY } := by
  induction n with
  | zero =>
      ext j
      · by_cases h : j = ii <;> simp [simRunD, posIter, Function.update_apply, h]
      · by_cases h : j = ii <;> simp [simRunD, posIter, Function.update_apply, h]
      · simp [simRunD, hitCount]
      · rfl
      · rfl
  | succ n IH =>
      show simStepD G r ii (d n) (simRunD G r ii d n s) = _
      rw [IH, simStepD_char]
      simp only [Function.update_same]
      ext j
      · simp [Function.update_idem, posIter_succ]
      · simp [Function.update_idem, posIter_succ]
      · show s.map j + hitCount G r ii d n (s.particleX ii, s.particleY ii) j +
            hitInc G ii
              (trajStep G r (d n).1 (d n).2
                (posIter G r d n (s.particleX ii, s.particleY ii)).1
                (posIter G r d n (s.particleX ii, s.particleY ii)).2).2 j =
          s.map j + hitCount G r ii d (n + 1) (s.particleX ii, s.particleY ii) j
        rw [Nat.add_assoc]
        congr 1
      · rfl
      · rfl

lemma simRunD_randX (G : ℕ) (r : ℚ) (ii : ℕ) (d : ℕ → ℚ × ℚ) (n : ℕ)
    (s : KState) : (simRunD G r ii d n s).randX = s.randX := by
  rw [simRunD_char]

lemma simRunD_randY (G : ℕ) (r : ℚ) (ii : ℕ) (d : ℕ → ℚ × ℚ) (n : ℕ)
    (s : KState) : (simRunD G r ii d n s).randY = s.randY := by
  rw [simRunD_char]

/-- The table-reading loop agrees with the explicit-displacement loop fed
with the displacement sequence extracted from the (immutable) tables. -/
lemma simRun_eq_simRunD (G : ℕ) (r : ℚ) (nP ii : ℕ) (n : ℕ) (s : KState) :
    simRun G r nP ii n s =
      simRunD G r ii (dispSeqOf s.randX s.randY nP ii) n s := by
  induction n with
  | zero => rfl
  | succ n IH =>
      show simStep G r nP ii n (simRun G r nP ii n s) = _
      rw [IH, simStep, simRunD_randX, simRunD_randY]
      rfl

/-! ## Slice arithmetic -/

lemma enc_mem_slice {G : ℕ} (ii : ℕ) {cY cX : ℤ} (h0Y : 0 ≤ cY) (hY : cY < (G : ℤ))
    (h0X : 0 ≤ cX) (hX : cX < (G : ℤ)) :
    (ii : ℤ) * G * G ≤ enc G ii cY cX ∧
      enc G ii cY cX < ((ii : ℤ) + 1) * G * G := by
  unfold enc
  constructor
  · nlinarith [mul_nonneg h0Y (le_trans h0X hX.le)]
  · nlinarith [mul_nonneg (by omega : (0 : ℤ) ≤ (G : ℤ) - 1 - cY)
      (le_trans h0X hX.le)]

lemma slice_disjoint {G p q : ℕ} (hpq : p ≠ q) {j : ℤ}
    (hp1 : (p : ℤ) * G * G ≤ j) (hp2 : j < ((p : ℤ) + 1) * G * G) :
    j < (q : ℤ) * G * G ∨ ((q : ℤ) + 1) * G * G ≤ j := by
  have hGG : (0 : ℤ) ≤ (G : ℤ) * G := mul_nonneg (by positivity) (by positivity)
  rcases lt_or_gt_of_ne hpq with h | h
  · left
    have hle : ((p : ℤ) + 1) ≤ (q : ℤ) := by exact_mod_cast h
    have hm : ((p : ℤ) + 1) * ((G : ℤ) * G) ≤ (q : ℤ) * ((G : ℤ) * G) :=
      mul_le_mul_of_nonneg_right hle hGG
    calc j < ((p : ℤ) + 1) * G * G := hp2
    _ = ((p : ℤ) + 1) * ((G : ℤ) * G) := by ring
    _ ≤ (q : ℤ) * ((G : ℤ) * G) := hm
    _ = (q : ℤ) * G * G := by ring
  · right
    have hle : ((q : ℤ) + 1) ≤ (p : ℤ) := by exact_mod_cast h
    have hm : ((q : ℤ) + 1) * ((G : ℤ) * G) ≤ (p : ℤ) * ((G : ℤ) * G) :=
      mul_le_mul_of_nonneg_right hle hGG
    calc ((q : ℤ) + 1) * G * G = ((q : ℤ) + 1) * ((G : ℤ) * G) := by ring
    _ ≤ (p : ℤ) * ((G : ℤ) * G) := hm
    _ = (p : ℤ) * G * G := by ring
    _ ≤ j := hp1

lemma hitInc_le_one (G ii : ℕ) (o : Option (ℤ × ℤ)) (j : ℤ) :
    hitInc G ii o j ≤ 1 := by
  rcases o with _ | c
  · exact Nat.zero_le 1
  · show (if enc G ii c.1 c.2 = j then 1 else 0) ≤ 1
    split <;> omega

lemma hitCount_le (G : ℕ) (r : ℚ) (ii : ℕ) (d : ℕ → ℚ × ℚ) (n : ℕ)
    (p : ℚ × ℚ) (j : ℤ) : hitCount G r ii d n p j ≤ n := by
  induction n with
  | zero => exact le_rfl
  | succ n IH =>
      exact Nat.add_le_add IH (hitInc_le_one ..)

/-- A particle's hits all land inside its own map slice. -/
lemma hitCount_eq_zero_outside {G ii : ℕ} {j : ℤ}
    (h : j < (ii : ℤ) * G * G ∨ ((ii : ℤ) + 1) * G * G ≤ j)
    (r : ℚ) (d : ℕ → ℚ × ℚ) (n : ℕ) (p : ℚ × ℚ) :
    hitCount G r ii d n p j = 0 := by
  induction n with
  | zero => rfl
  | succ n IH =>
      show hitCount G r ii d n p j + hitInc G ii _ j = 0
      rw [IH, Nat.zero_add]
      rcases hsnd : (trajStep G r (d n).1 (d n).2 (posIter G r d n p).1
          (posIter G r d n p).2).2 with _ | c
      · rfl
      · obtain ⟨h0Y, hY, h0X, hX⟩ := trajStep_hit_bounds hsnd
        have hm := enc_mem_slice ii h0Y hY h0X hX
        show (if enc G ii c.1 c.2 = j then 1 else 0) = 0
        rcases h with h | h
        · rw [if_neg]; omega
        · rw [if_neg]; omega

/-! ## Thread and kernel characterization -/

lemma threadRun_skip {G : ℕ} {r : ℚ} {nP nIter ii : ℕ} (h : nP ≤ ii)
    (s : KState) : threadRun G r nP nIter ii s = s := by
  rw [threadRun, if_pos h]

lemma threadRun_char {G : ℕ} {r : ℚ} {nP nIter ii : ℕ} (h : ii < nP)
    (s : KState) :
    threadRun G r nP nIter ii s =
      { particleX := Function.update s.particleX ii
          (finalPos G r nP nIter s ii).1
        particleY := Function.update s.particleY ii
          (finalPos G r nP nIter s ii).2
        map := fun j => s.map j + particleHits G r nP nIter s ii j
        randX := s.randX
        randY := s.randY } := by
  rw [threadRun, if_neg (not_le.mpr h), simRun_eq_simRunD, simRunD_char]
  ext j
  · rfl
  · rfl
  · show s.map j + _ = s.map j + particleHits G r nP nIter s ii j
    rw [particleHits, if_pos h]
  · rfl
  · rfl

lemma finalPos_congr {G : ℕ} {r : ℚ} {nP nIter : ℕ} {t s : KState} {q : ℕ}
    (h1 : t.particleX q = s.particleX q) (h2 : t.particleY q = s.particleY q)
    (h3 : t.randX = s.randX) (h4 : t.randY = s.randY) :
    finalPos G r nP nIter t q = finalPos G r nP nIter s q := by
  unfold finalPos
  rw [h1, h2, h3, h4]

lemma particleHits_congr {G : ℕ} {r : ℚ} {nP nIter : ℕ} {t s : KState} {q : ℕ}
    (h1 : t.particleX q = s.particleX q) (h2 : t.particleY q = s.particleY q)
    (h3 : t.randX = s.randX) (h4 : t.randY = s.randY) (j : ℤ) :
    particleHits G r nP nIter t q j = particleHits G r nP nIter s q j := by
  unfold particleHits
  rw [h1, h2, h3, h4]

/-- What the kernel launch computes, for any duplicate-free thread schedule:
every scheduled particle index below `n_particles` ends at its final
position, and the map receives every scheduled particle's hits. -/
lemma kernelRun_char (G : ℕ) (r : ℚ) (nP nIter : ℕ) (order : List ℕ)
    (hnd : order.Nodup) (s : KState) :
    kernelRun G r nP nIter order s =
      { particleX := fun q =>
          if q ∈ order ∧ q < nP then (finalPos G r nP nIter s q).1
          else s.particleX q
        particleY := fun q =>
          if q ∈ order ∧ q < nP then (finalPos G r nP nIter s q).2
          else s.particleY q
        map := fun j =>
          s.map j + (order.map (fun ii => particleHits G r nP nIter s ii j)).sum
        randX := s.randX
        randY := s.randY } := by
  induction order generalizing s with
  | nil =>
      ext j
      · simp [kernelRun]
      · simp [kernelRun]
      · simp [kernelRun]
      · rfl
      · rfl
  | cons a rest IH =>
      have hndr : rest.Nodup := hnd.of_cons
      have hna : a ∉ rest := (List.nodup_cons.mp hnd).1
      show kernelRun G r nP nIter rest (threadRun G r nP nIter a s) = _
      set t := threadRun G r nP nIter a s with hts
      rw [IH hndr]
      by_cases ha : a < nP
      · have hXa : t.particleX a = (finalPos G r nP nIter s a).1 := by
          rw [hts, threadRun_char ha]
          exact Function.update_same ..
        have hYa : t.particleY a = (finalPos G r nP nIter s a).2 := by
          rw [hts, threadRun_char ha]
          exact Function.update_same ..
        have hXq : ∀ q, q ≠ a → t.particleX q = s.particleX q := by
          intro q hq
          rw [hts, threadRun_char ha]
          exact Function.update_noteq hq _ _
        have hYq : ∀ q, q ≠ a → t.particleY q = s.particleY q := by
          intro q hq
          rw [hts, threadRun_char ha]
          exact Function.update_noteq hq _ _
        have hrX : t.randX = s.randX := by rw [hts, threadRun_char ha]
        have hrY : t.randY = s.randY := by rw [hts, threadRun_char ha]
        have hmap : ∀ j, t.map j = s.map j + particleHits G r nP nIter s a j := by
          intro j
          rw [hts, threadRun_char ha]
        have hfin : ∀ q, q ≠ a →
            finalPos G r nP nIter t q = finalPos G r nP nIter s q := by
          intro q hq
          exact finalPos_congr (hXq q hq) (hYq q hq) hrX hrY
        have hph : ∀ q, q ≠ a → ∀ j, particleHits G r nP nIter t q j =
            particleHits G r nP nIter s q j := by
          intro q hq j
          exact particleHits_congr (hXq q hq) (hYq q hq) hrX hrY j
        ext j
        · show (if j ∈ rest ∧ j < nP then (finalPos G r nP nIter t j).1
              else t.particleX j) =
            (if j ∈ a :: rest ∧ j < nP then (finalPos G r nP nIter s j).1
              else s.particleX j)
          by_cases hj : j = a
          · subst hj
            rw [if_neg (fun hc => hna hc.1),
              if_pos ⟨List.mem_cons_self .., ha⟩]
            exact hXa
          · by_cases hjr : j ∈ rest ∧ j < nP
            · rw [if_pos hjr, if_pos ⟨List.mem_cons_of_mem _ hjr.1, hjr.2⟩,
                hfin j hj]
            · rw [if_neg hjr,
                if_neg (fun hc =>
                  hjr ⟨(List.mem_cons.mp hc.1).resolve_left hj, hc.2⟩)]
              exact hXq j hj
        · show (if j ∈ rest ∧ j < nP then (finalPos G r nP nIter t j).2
              else t.particleY j) =
            (if j ∈ a :: rest ∧ j < nP then (finalPos G r nP nIter s j).2
              else s.particleY j)
          by_cases hj : j = a
          · subst hj
            rw [if_neg (fun hc => hna hc.1),
              if_pos ⟨List.mem_cons_self .., ha⟩]
            exact hYa
          · by_cases hjr : j ∈ rest ∧ j < nP
            · rw [if_pos hjr, if_pos ⟨List.mem_cons_of_mem _ hjr.1, hjr.2⟩,
                hfin j hj]
            · rw [if_neg hjr,
                if_neg (fun hc =>
                  hjr ⟨(List.mem_cons.mp hc.1).resolve_left hj, hc.2⟩)]
              exact hYq j hj
        · show t.map j +
              (rest.map fun ii => particleHits G r nP nIter t ii j).sum =
            s.map j +
              ((a :: rest).map fun ii => particleHits G r nP nIter s ii j).sum
          have hlist : (rest.map fun ii => particleHits G r nP nIter t ii j) =
              rest.map fun ii => particleHits G r nP nIter s ii j := by
            refine List.map_congr_left ?_
            intro q hq
            exact hph q (fun hc => hna (hc ▸ hq)) j
          rw [hmap j, hlist, List.map_cons, List.sum_cons, Nat.add_assoc]
        · exact congrFun hrX j
        · exact congrFun hrY j
      · have hts2 : t = s := by
          rw [hts]
          exact threadRun_skip (not_lt.mp ha) s
        rw [hts2]
        have hhits0 : ∀ j, particleHits G r nP nIter s a j = 0 := by
          intro j
          rw [particleHits, if_neg ha]
        ext j
        · show (if j ∈ rest ∧ j < nP then (finalPos G r nP nIter s j).1
              else s.particleX j) =
            (if j ∈ a :: rest ∧ j < nP then (finalPos G r nP nIter s j).1
              else s.particleX j)
          by_cases hj : j = a
          · subst hj
            rw [if_neg (fun hc => hna hc.1), if_neg (fun hc => ha hc.2)]
          · by_cases hjr : j ∈ rest ∧ j < nP
            · rw [if_pos hjr, if_pos ⟨List.mem_cons_of_mem _ hjr.1, hjr.2⟩]
            · rw [if_neg hjr,
                if_neg (fun hc =>
                  hjr ⟨(List.mem_cons.mp hc.1).resolve_left hj, hc.2⟩)]
        · show (if j ∈ rest ∧ j < nP then (finalPos G r nP nIter s j).2
              else s.particleY j) =
            (if j ∈ a :: rest ∧ j < nP then (finalPos G r nP nIter s j).2
              else s.particleY j)
          by_cases hj : j = a
          · subst hj
            rw [if_neg (fun hc => hna hc.1), if_neg (fun hc => ha hc.2)]
          · by_cases hjr : j ∈ rest ∧ j < nP
            · rw [if_pos hjr, if_pos ⟨List.mem_cons_of_mem _ hjr.1, hjr.2⟩]
            · rw [if_neg hjr,
                if_neg (fun hc =>
                  hjr ⟨(List.mem_cons.mp hc.1).resolve_left hj, hc.2⟩)]
        · show s.map j +
              (rest.map fun ii => particleHits G r nP nIter s ii j).sum =
            s.map j +
              ((a :: rest).map fun ii => particleHits G r nP nIter s ii j).sum
          rw [List.map_cons, List.sum_cons, hhits0, Nat.zero_add]
        · rfl
        · rfl

/-! ## Reduction characterization -/

lemma reduceRun_apply (G : ℕ) (m : ℤ → ℕ) (order : List ℕ)
    (grid : ℕ → ℕ → ℕ) (y x : ℕ) :
    reduceRun G m order grid y x =
      grid y x + (order.map (fun i =>
        if y < G ∧ x < G ∧ 0 < m (enc G i (y : ℤ) (x : ℤ)) then
          m (enc G i (y : ℤ) (x : ℤ))
        else 0)).sum := by
  induction order generalizing grid with
  | nil => simp [reduceRun]
  | cons a rest IH =>
      show reduceRun G m rest (reduceParticle G m a grid) y x = _
      rw [IH, List.map_cons, List.sum_cons]
      show (if y < G ∧ x < G ∧ 0 < m (enc G a (y : ℤ) (x : ℤ)) then
          grid y x + m (enc G a (y : ℤ) (x : ℤ)) else grid y x) + _ = _
      by_cases h : y < G ∧ x < G ∧ 0 < m (enc G a (y : ℤ) (x : ℤ))
      · rw [if_pos h, if_pos h]; ring
      · rw [if_neg h, if_neg h]; ring

lemma reduceRunAll_apply (G : ℕ) (m : ℤ → ℕ) (order : List ℕ)
    (grid : ℕ → ℕ → ℕ) (y x : ℕ) :
    reduceRunAll G m order grid y x =
      grid y x + (order.map (fun i =>
        if y < G ∧ x < G then m (enc G i (y : ℤ) (x : ℤ)) else 0)).sum := by
  induction order generalizing grid with
  | nil => simp [reduceRunAll]
  | cons a rest IH =>
      show reduceRunAll G m rest (reduceParticleAll G m a grid) y x = _
      rw [IH, List.map_cons, List.sum_cons]
      show (if y < G ∧ x < G then
          grid y x + m (enc G a (y : ℤ) (x : ℤ)) else grid y x) + _ = _
      by_cases h : y < G ∧ x < G
      · rw [if_pos h, if_pos h]; ring
      · rw [if_neg h, if_neg h]; ring

/-- The two per-cell contributions (with and without the `> 0` guard)
agree: adding a zero count is a no-op. -/
lemma reduce_contrib_eq (G : ℕ) (m : ℤ → ℕ) (i y x : ℕ) :
    (if y < G ∧ x < G ∧ 0 < m (enc G i (y : ℤ) (x : ℤ)) then
        m (enc G i (y : ℤ) (x : ℤ)) else 0) =
      (if y < G ∧ x < G then m (enc G i (y : ℤ) (x : ℤ)) else 0) := by
  by_cases h1 : y < G ∧ x < G
  · by_cases h2 : 0 < m (enc G i (y : ℤ) (x : ℤ))
    · rw [if_pos ⟨h1.1, h1.2, h2⟩, if_pos h1]
    · rw [if_neg (fun hc => h2 hc.2.2), if_pos h1]
      omega
  · rw [if_neg (fun hc => h1 ⟨hc.1, hc.2.1⟩), if_neg h1]

/-- The guarded reduction and the guard-free reduction compute the same
grid, for every schedule of particles. -/
lemma reduceRun_eq_reduceRunAll (G : ℕ) (m : ℤ → ℕ) (order : List ℕ)
    (grid : ℕ → ℕ → ℕ) :
    reduceRun G m order grid = reduceRunAll G m order grid := by
  funext y x
  rw [reduceRun_apply, reduceRunAll_apply]
  congr 1
  congr 1
  exact congrArg (List.map · order)
    (funext fun i => reduce_contrib_eq G m i y x)

/-! ## Claims -/

/-- Full characterization of one kernel loop iteration: position update,
truncation/floor split, and the exact increment condition. -/
lemma simStep_full_char (G : ℕ) (r : ℚ) (nP ii iter : ℕ) (s : KState) :
    (∀ q : ℚ, trunc q = if q < 0 then ⌈q⌉ else ⌊q⌋) ∧
    (simStep G r nP ii iter s).particleX ii =
      s.particleX ii + displacement (s.randX (iter * nP + ii)) ∧
    (simStep G r nP ii iter s).particleY ii =
      s.particleY ii + displacement (s.randY (iter * nP + ii)) ∧
    (∀ j : ℤ,
      (simStep G r nP ii iter s).map j =
        s.map j +
          if j = enc G ii
                ⌊s.particleY ii + displacement (s.randY (iter * nP + ii))⌋
                ⌊s.particleX ii + displacement (s.randX (iter * nP + ii))⌋ ∧
              (0 ≤ s.particleX ii + displacement (s.randX (iter * nP + ii)) ∧
                s.particleX ii + displacement (s.randX (iter * nP + ii)) <
                  (G : ℚ) ∧
                0 ≤ s.particleY ii + displacement (s.randY (iter * nP + ii)) ∧
                s.particleY ii + displacement (s.randY (iter * nP + ii)) <
                  (G : ℚ)) ∧
              (s.particleX ii + displacement (s.randX (iter * nP + ii)) -
                  (trunc (s.particleX ii +
                    displacement (s.randX (iter * nP + ii))) : ℚ)) *
                (s.particleX ii + displacement (s.randX (iter * nP + ii)) -
                  (trunc (s.particleX ii +
                    displacement (s.randX (iter * nP + ii))) : ℚ)) +
                (s.particleY ii + displacement (s.randY (iter * nP + ii)) -
                  (trunc (s.particleY ii +
                    displacement (s.randY (iter * nP + ii))) : ℚ)) *
                (s.particleY ii + displacement (s.randY (iter * nP + ii)) -
                  (trunc (s.particleY ii +
                    displacement (s.randY (iter * nP + ii))) : ℚ)) ≤ r * r
          then 1 else 0) := by
  refine ⟨fun q => rfl, ?_, ?_, ?_⟩
  · rw [simStep, simStepD_char]
    exact Function.update_same ..
  · rw [simStep, simStepD_char]
    exact Function.update_same ..
  · intro j
    rw [simStep, simStepD_char]
    show s.map j + hitInc G ii _ j = s.map j + _
    congr 1
    rw [trajStep_snd]
    simp only [dispSeqOf]
    set px := s.particleX ii + displacement (s.randX (iter * nP + ii)) with hpx
    set py := s.particleY ii + displacement (s.randY (iter * nP + ii)) with hpy
    by_cases hA : (px < (G : ℚ) ∧ py < (G : ℚ) ∧ 0 ≤ px ∧ 0 ≤ py) ∧
        (px - (trunc px : ℚ)) * (px - (trunc px : ℚ)) +
          (py - (trunc py : ℚ)) * (py - (trunc py : ℚ)) ≤ r * r
    · rw [if_pos hA]
      show (if enc G ii ⌊py⌋ ⌊px⌋ = j then 1 else 0) = _
      by_cases hj : j = enc G ii ⌊py⌋ ⌊px⌋
      · rw [if_pos (Eq.symm hj),
          if_pos ⟨hj, ⟨hA.1.2.2.1, hA.1.1, hA.1.2.2.2, hA.1.2.1⟩, hA.2⟩]
      · rw [if_neg (fun hc => hj (Eq.symm hc)), if_neg (fun hc => hj hc.1)]
    · rw [if_neg hA]
      show 0 = _
      rw [if_neg]
      intro hc
      exact hA ⟨⟨hc.2.1.2.1, hc.2.1.2.2.2, hc.2.1.1, hc.2.1.2.2.1⟩, hc.2.2⟩

/-- C1: in every trajectory step of every particle, the displacement pair is
added to the particle's position on both axes independently with no clamping;
the fractional offsets are position minus truncation-toward-zero (`⌈⌉` below
zero, `⌊⌋` otherwise), the cell indices are floors of the position, and the
particle's own accumulator cell `(⌊y⌋, ⌊x⌋)` is incremented by exactly 1 iff
the new position passes the grid-membership test and the occupancy test
`dX² + dY² ≤ r²`, with no accumulator change otherwise. -/
theorem C1_trajectory_step (G : ℕ) (r : ℚ) (nP ii iter : ℕ) (s : KState) :
    (∀ q : ℚ, trunc q = if q < 0 then ⌈q⌉ else ⌊q⌋) ∧
    (simStep G r nP ii iter s).particleX ii =
      s.particleX ii + displacement (s.randX (iter * nP + ii)) ∧
    (simStep G r nP ii iter s).particleY ii =
      s.particleY ii + displacement (s.randY (iter * nP + ii)) ∧
    (∀ j : ℤ,
      (simStep G r nP ii iter s).map j =
        s.map j +
          if j = enc G ii
                ⌊s.particleY ii + displacement (s.randY (iter * nP + ii))⌋
                ⌊s.particleX ii + displacement (s.randX (iter * nP + ii))⌋ ∧
              (0 ≤ s.particleX ii + displacement (s.randX (iter * nP + ii)) ∧
                s.particleX ii + displacement (s.randX (iter * nP + ii)) <
                  (G : ℚ) ∧
                0 ≤ s.particleY ii + displacement (s.randY (iter * nP + ii)) ∧
                s.particleY ii + displacement (s.randY (iter * nP + ii)) <
                  (G : ℚ)) ∧
              (s.particleX ii + displacement (s.randX (iter * nP + ii)) -
                  (trunc (s.particleX ii +
                    displacement (s.randX (iter * nP + ii))) : ℚ)) *
                (s.particleX ii + displacement (s.randX (iter * nP + ii)) -
                  (trunc (s.particleX ii +
                    displacement (s.randX (iter * nP + ii))) : ℚ)) +
                (s.particleY ii + displacement (s.randY (iter * nP + ii)) -
                  (trunc (s.particleY ii +
                    displacement (s.randY (iter * nP + ii))) : ℚ)) *
                (s.particleY ii + displacement (s.randY (iter * nP + ii)) -
                  (trunc (s.particleY ii +
                    displacement (s.randY (iter * nP + ii))) : ℚ)) ≤ r * r
          then 1 else 0) :=
  simStep_full_char G r nP ii iter s

lemma displacement_bounds {v : ℕ} (h : v < 100) :
    -(99 / 2000) ≤ displacement v ∧ displacement v ≤ 99 / 2000 := by
  unfold displacement
  constructor
  · have h0 : (0 : ℚ) ≤ (v : ℚ) := by positivity
    linarith
  · have h99 : (v : ℚ) ≤ 99 := by exact_mod_cast Nat.lt_succ_iff.mp h
    linarith

/-- C2 counterexample: the raw draw 99 is produced by the table (e.g. from a
`rand()` stream that returns 99), and its displacement is
`99/1000 − 99/2000 = 99/2000 = 0.0495`, which exceeds the claimed upper
bound `0.0445 = 89/2000`. -/
theorem C2_counterexample :
    randomX (fun _ => 99) 0 = 99 ∧
    displacement (randomX (fun _ => 99) 0) = 99 / 2000 ∧
    ¬ displacement (randomX (fun _ => 99) 0) ≤ 89 / 2000 := by
  refine ⟨rfl, ?_, ?_⟩
  · norm_num [randomX, displacement]
  · norm_num [randomX, displacement]

/-- C2 (amended): every table entry is an integer in `[0, 99]` (the raw draw
reduced modulo `scale = 100`), the displacement consumed by the kernel
equals `value/1000 − 0.0495`, and hence every displacement lies in the
symmetric range `[−0.0495, +0.0495]` per axis (the upper end `0.0495`, not
`0.0445`, is attained at draw 99). -/
theorem C2_displacement_range (stream : ℕ → ℕ) (i : ℕ) :
    randomX stream i < 100 ∧ randomY stream i < 100 ∧
    displacement (randomX stream i) =
      (randomX stream i : ℚ) / 1000 - 99 / 2000 ∧
    displacement (randomY stream i) =
      (randomY stream i : ℚ) / 1000 - 99 / 2000 ∧
    -(99 / 2000) ≤ displacement (randomX stream i) ∧
    displacement (randomX stream i) ≤ 99 / 2000 ∧
    -(99 / 2000) ≤ displacement (randomY stream i) ∧
    displacement (randomY stream i) ≤ 99 / 2000 := by
  have hX : randomX stream i < 100 := Nat.mod_lt _ (by norm_num)
  have hY : randomY stream i < 100 := Nat.mod_lt _ (by norm_num)
  exact ⟨hX, hY, rfl, rfl, (displacement_bounds hX).1, (displacement_bounds hX).2,
    (displacement_bounds hY).1, (displacement_bounds hY).2⟩

/-- C3: the in-grid test is half-open on both axes — an iteration changes the
accumulator only when the new position is `≥ 0` and `< G` on both x and y;
and concretely, a particle at `x = 20.9505` whose draw 99 moves it to
`x = 21 = G` exactly produces no increment that iteration. -/
theorem C3_half_open_membership :
    (∀ (G : ℕ) (r : ℚ) (nP ii iter : ℕ) (s : KState) (j : ℤ),
      (simStep G r nP ii iter s).map j ≠ s.map j →
        0 ≤ s.particleX ii + displacement (s.randX (iter * nP + ii)) ∧
        s.particleX ii + displacement (s.randX (iter * nP + ii)) < (G : ℚ) ∧
        0 ≤ s.particleY ii + displacement (s.randY (iter * nP + ii)) ∧
        s.particleY ii + displacement (s.randY (iter * nP + ii)) < (G : ℚ)) ∧
    (simStep 21 (1 / 2) 1 0 0 stateEdge).particleX 0 = 21 ∧
    (∀ j : ℤ, (simStep 21 (1 / 2) 1 0 0 stateEdge).map j = stateEdge.map j) := by
  refine ⟨?_, ?_, ?_⟩
  · intro G r nP ii iter s j hne
    have hchar := (simStep_full_char G r nP ii iter s).2.2.2 j
    by_contra hout
    apply hne
    rw [hchar, if_neg, Nat.add_zero]
    intro hc
    exact hout ⟨hc.2.1.1, hc.2.1.2.1, hc.2.1.2.2.1, hc.2.1.2.2.2⟩
  · norm_num [simStep, simStepD, dispSeqOf, trajStep, displacement, stateEdge]
  · intro j
    have hchar := (simStep_full_char 21 (1 / 2) 1 0 0 stateEdge).2.2.2 j
    rw [hchar, if_neg, Nat.add_zero]
    intro hc
    have hx : stateEdge.particleX 0 +
        displacement (stateEdge.randX (0 * 1 + 0)) = 21 := by
      norm_num [stateEdge, displacement]
    rw [hx] at hc
    have := hc.2.1.2.1
    norm_num at this

/-- C8: with an iteration count of zero, the final occupancy grid is all
zeros, for any particle count, grid extent, radius and random stream. -/
theorem C8_zero_iterations (G nP : ℕ) (r : ℚ) (stream : ℕ → ℕ) (y x : ℕ) :
    motionDevice G nP 0 r stream y x = 0 := by
  have hthread : ∀ (ii : ℕ) (s : KState), threadRun G r nP 0 ii s = s := by
    intro ii s
    rw [threadRun]
    split <;> rfl
  have hkernel : ∀ (order : List ℕ) (s : KState),
      kernelRun G r nP 0 order s = s := by
    intro order
    induction order with
    | nil => intro s; rfl
    | cons a rest IH =>
        intro s
        show kernelRun G r nP 0 rest (threadRun G r nP 0 a s) = s
        rw [hthread a s]
        exact IH s
  rw [motionDevice, Simulation, hkernel]
  rw [reduceAll, reduceRun_apply]
  rw [Nat.zero_add]
  apply List.sum_eq_zero
  intro v hv
  rw [List.mem_map] at hv
  obtain ⟨i, -, hi⟩ := hv
  rw [← hi]
  rw [if_neg]
  intro hc
  exact absurd hc.2.2 (by simp [initState])

/-- Concrete instance for C3: the step from `(10, 10)` with draws 50 does
increment a cell (index 220 = 10·21 + 10), and the general half-open bound
applies to it. -/
theorem C3_half_open_membership_witness :
    (simStep 21 (1 / 2) 1 0 0 stateHit).map 220 ≠ stateHit.map 220 ∧
    (0 ≤ stateHit.particleX 0 + displacement (stateHit.randX (0 * 1 + 0)) ∧
      stateHit.particleX 0 + displacement (stateHit.randX (0 * 1 + 0)) <
        (21 : ℚ) ∧
      0 ≤ stateHit.particleY 0 + displacement (stateHit.randY (0 * 1 + 0)) ∧
      stateHit.particleY 0 + displacement (stateHit.randY (0 * 1 + 0)) <
        (21 : ℚ)) :=
  have h : (simStep 21 (1 / 2) 1 0 0 stateHit).map 220 ≠ stateHit.map 220 := by
    norm_num [simStep, simStepD, dispSeqOf, trajStep, displacement, trunc, enc,
      Function.update_apply, stateHit]
  ⟨h, C3_half_open_membership.1 21 (1 / 2) 1 0 0 stateHit 220 h⟩

/-- C10: whenever a trajectory step of an in-range thread reports a hit, the
cell indices satisfy `0 ≤ iY, iX < G` and the flat map index lies in
`[0, nP·G²)`; and a thread whose index is at least `n_particles` leaves the
state untouched. -/
theorem C10_index_safety :
    (∀ (G : ℕ) (r : ℚ) (nP ii : ℕ) (dx dy x y : ℚ) (c : ℤ × ℤ),
      ii < nP → (trajStep G r dx dy x y).2 = some c →
        0 ≤ c.1 ∧ c.1 < (G : ℤ) ∧ 0 ≤ c.2 ∧ c.2 < (G : ℤ) ∧
        0 ≤ enc G ii c.1 c.2 ∧ enc G ii c.1 c.2 < (nP : ℤ) * G * G) ∧
    (∀ (G : ℕ) (r : ℚ) (nP nIter ii : ℕ) (s : KState),
      nP ≤ ii → threadRun G r nP nIter ii s = s) := by
  constructor
  · intro G r nP ii dx dy x y c hii hsome
    obtain ⟨h1, h2, h3, h4⟩ := trajStep_hit_bounds hsome
    obtain ⟨h5, h6⟩ := enc_mem_slice ii h1 h2 h3 h4
    refine ⟨h1, h2, h3, h4, ?_, ?_⟩
    · have hnn : (0 : ℤ) ≤ (ii : ℤ) * G * G := by positivity
      linarith
    · have hle : ((ii : ℤ) + 1) * ((G : ℤ) * G) ≤ (nP : ℤ) * ((G : ℤ) * G) :=
        mul_le_mul_of_nonneg_right (by exact_mod_cast hii) (by positivity)
      calc enc G ii c.1 c.2 < ((ii : ℤ) + 1) * G * G := h6
      _ = ((ii : ℤ) + 1) * ((G : ℤ) * G) := by ring
      _ ≤ (nP : ℤ) * ((G : ℤ) * G) := hle
      _ = (nP : ℤ) * G * G := by ring
  · intro G r nP nIter ii s h
    exact threadRun_skip h s

/-- Concrete instance for C10: the hit at `(10, 10)` of a single-particle
launch has in-bounds indices, and thread 1 of a 1-particle launch is a
no-op. -/
theorem C10_index_safety_witness :
    ((0 : ℕ) < 1 ∧
      (trajStep 21 (1 / 2) (1 / 2000) (1 / 2000) 10 10).2 = some (10, 10) ∧
      (0 ≤ ((10, 10) : ℤ × ℤ).1 ∧ ((10, 10) : ℤ × ℤ).1 < (21 : ℤ) ∧
        0 ≤ ((10, 10) : ℤ × ℤ).2 ∧ ((10, 10) : ℤ × ℤ).2 < (21 : ℤ) ∧
        0 ≤ enc 21 0 10 10 ∧ enc 21 0 10 10 < (1 : ℤ) * 21 * 21)) ∧
    (1 ≤ 1 ∧ threadRun 21 (1 / 2) 1 5 1 stateHit = stateHit) :=
  have hsome : (trajStep 21 (1 / 2) (1 / 2000) (1 / 2000) 10 10).2 =
      some (10, 10) := by
    norm_num [trajStep, trunc]
  ⟨⟨Nat.zero_lt_one, hsome,
      C10_index_safety.1 21 (1 / 2) 1 0 (1 / 2000) (1 / 2000) 10 10 (10, 10)
        Nat.zero_lt_one hsome⟩,
    le_rfl, C10_index_safety.2 21 (1 / 2) 1 5 1 stateHit le_rfl⟩

/-- C7: the run of thread `p` leaves every other particle's position
entries untouched, leaves the map untouched outside the slice
`[p·G², (p+1)·G²)`, and never writes the displacement tables. -/
theorem C7_write_isolation (G : ℕ) (r : ℚ) (nP nIter p q : ℕ) (s : KState)
    (hq : q ≠ p) (j : ℤ)
    (hj : j < (p : ℤ) * G * G ∨ ((p : ℤ) + 1) * G * G ≤ j) :
    (threadRun G r nP nIter p s).particleX q = s.particleX q ∧
    (threadRun G r nP nIter p s).particleY q = s.particleY q ∧
    (threadRun G r nP nIter p s).map j = s.map j ∧
    (threadRun G r nP nIter p s).randX = s.randX ∧
    (threadRun G r nP nIter p s).randY = s.randY := by
  by_cases hp : p < nP
  · rw [threadRun_char hp]
    refine ⟨Function.update_noteq hq _ _, Function.update_noteq hq _ _,
      ?_, rfl, rfl⟩
    show s.map j + particleHits G r nP nIter s p j = s.map j
    rw [particleHits, if_pos hp, hitCount_eq_zero_outside hj, Nat.add_zero]
  · rw [threadRun_skip (not_lt.mp hp) s]
    exact ⟨rfl, rfl, rfl, rfl, rfl⟩

/-- Concrete instance for C7: thread 0 of a 1-particle, 21-grid launch does
not change particle 1's entries nor map index 441 (the first index past its
slice), nor the tables. -/
theorem C7_write_isolation_witness :
    ((1 : ℕ) ≠ 0) ∧
    ((441 : ℤ) < (0 : ℤ) * 21 * 21 ∨ ((0 : ℤ) + 1) * 21 * 21 ≤ 441) ∧
    ((threadRun 21 (1 / 2) 1 3 0 stateHit).particleX 1 =
        stateHit.particleX 1 ∧
      (threadRun 21 (1 / 2) 1 3 0 stateHit).particleY 1 =
        stateHit.particleY 1 ∧
      (threadRun 21 (1 / 2) 1 3 0 stateHit).map 441 = stateHit.map 441 ∧
      (threadRun 21 (1 / 2) 1 3 0 stateHit).randX = stateHit.randX ∧
      (threadRun 21 (1 / 2) 1 3 0 stateHit).randY = stateHit.randY) :=
  have hq : (1 : ℕ) ≠ 0 := one_ne_zero
  have hj : (441 : ℤ) < (0 : ℤ) * 21 * 21 ∨ ((0 : ℤ) + 1) * 21 * 21 ≤ 441 :=
    Or.inr (by norm_num)
  ⟨hq, hj, C7_write_isolation 21 (1 / 2) 1 3 0 1 stateHit hq 441 hj⟩

lemma list_sum_range (f : ℕ → ℕ) (n : ℕ) :
    ((List.range n).map f).sum = ∑ i in Finset.range n, f i := by
  induction n with
  | zero => simp
  | succ n IH =>
      rw [List.range_succ n, List.map_append, List.sum_append,
        Finset.sum_range_succ, IH]
      simp

/-- C4: the reduction is order-independent (any particle order yields the
same grid), skipping zero cells is equivalent to visiting all cells, and the
final aggregate cell `(y, x)` is the sum over all particles of that
particle's private count there. -/
theorem C4_reduction_merge (G nP : ℕ) (m : ℤ → ℕ) (grid : ℕ → ℕ → ℕ)
    (order : List ℕ) (hperm : order.Perm (List.range nP)) :
    (∀ y x, reduceRun G m order grid y x = reduceAll G m nP grid y x) ∧
    (∀ y x, reduceRunAll G m order grid y x = reduceRun G m order grid y x) ∧
    (∀ y x, y < G → x < G →
      reduceAll G m nP (fun _ _ => 0) y x =
        ∑ i in Finset.range nP, m (enc G i (y : ℤ) (x : ℤ))) := by
  refine ⟨?_, ?_, ?_⟩
  · intro y x
    rw [reduceRun_apply, reduceAll, reduceRun_apply]
    congr 1
    exact (hperm.map _).sum_eq
  · intro y x
    rw [← reduceRun_eq_reduceRunAll]
  · intro y x hy hx
    rw [reduceAll, reduceRun_apply, Nat.zero_add, list_sum_range]
    refine Finset.sum_congr rfl ?_
    intro i _
    rw [reduce_contrib_eq, if_pos ⟨hy, hx⟩]

/-- Concrete instance for C4: merging in the order `[1, 0]` instead of
`[0, 1]` yields the same cell value, with or without the `> 0` guard. -/
theorem C4_reduction_merge_witness :
    [1, 0].Perm (List.range 2) ∧
    reduceRun 1 (fun _ => 0) [1, 0] (fun _ _ => 0) 0 0 =
      reduceAll 1 (fun _ => 0) 2 (fun _ _ => 0) 0 0 ∧
    reduceRunAll 1 (fun _ => 0) [1, 0] (fun _ _ => 0) 0 0 =
      reduceRun 1 (fun _ => 0) [1, 0] (fun _ _ => 0) 0 0 :=
  have hp : [1, 0].Perm (List.range 2) := by decide
  ⟨hp,
    (C4_reduction_merge 1 2 (fun _ => 0) (fun _ _ => 0) [1, 0] hp).1 0 0,
    (C4_reduction_merge 1 2 (fun _ => 0) (fun _ _ => 0) [1, 0] hp).2.1 0 0⟩

/-- Any thread schedule that is a permutation of `0, …, nP-1` computes the
same launch result as the in-order schedule. -/
lemma kernelRun_perm (G : ℕ) (r : ℚ) (nP nIter : ℕ) (order : List ℕ)
    (hperm : order.Perm (List.range nP)) (s : KState) :
    kernelRun G r nP nIter order s = Simulation G r nP nIter s := by
  have hnd : order.Nodup := hperm.nodup_iff.mpr (List.nodup_range nP)
  rw [Simulation, kernelRun_char G r nP nIter order hnd s,
    kernelRun_char G r nP nIter (List.range nP) (List.nodup_range nP) s]
  ext q
  · show (if q ∈ order ∧ q < nP then _ else _) =
      (if q ∈ List.range nP ∧ q < nP then _ else _)
    exact if_congr (and_congr_left fun _ => hperm.mem_iff) rfl rfl
  · show (if q ∈ order ∧ q < nP then _ else _) =
      (if q ∈ List.range nP ∧ q < nP then _ else _)
    exact if_congr (and_congr_left fun _ => hperm.mem_iff) rfl rfl
  · show s.map q + _ = s.map q + _
    congr 1
    exact (hperm.map _).sum_eq
  · rfl
  · rfl

/-- C6: with extensionally equal `rand()` streams and the same parameters,
the table entries, the displacement sequence, and the final occupancy grid
are identical, for every thread schedule that is a permutation of the
particle indices (degree and order of parallelism do not matter). -/
theorem C6_determinism (G nP nIter : ℕ) (r : ℚ) (s1 s2 : ℕ → ℕ)
    (hs : ∀ i, s1 i = s2 i) (order : List ℕ)
    (hperm : order.Perm (List.range nP)) :
    (∀ i, randomX s1 i = randomX s2 i ∧ randomY s1 i = randomY s2 i) ∧
    (∀ ii iter,
      dispSeqOf (randomX s1) (randomY s1) nP ii iter =
        dispSeqOf (randomX s2) (randomY s2) nP ii iter) ∧
    (∀ y x,
      reduceAll G (kernelRun G r nP nIter order
          (initState (randomX s1) (randomY s1))).map nP (fun _ _ => 0) y x =
        motionDevice G nP nIter r s2 y x) := by
  have hss : s1 = s2 := funext hs
  subst hss
  refine ⟨fun i => ⟨rfl, rfl⟩, fun ii iter => rfl, ?_⟩
  intro y x
  rw [kernelRun_perm G r nP nIter order hperm]
  rfl

/-- Concrete instance for C6: a 1-particle launch with the schedule `[0]`
and the zero stream reproduces `motionDevice` exactly. -/
theorem C6_determinism_witness :
    [0].Perm (List.range 1) ∧
    reduceAll 21 (kernelRun 21 (1 / 2) 1 2 [0]
        (initState (randomX fun _ => 0) (randomY fun _ => 0))).map 1
      (fun _ _ => 0) 10 10 =
      motionDevice 21 1 2 (1 / 2) (fun _ => 0) 10 10 :=
  have hp : [0].Perm (List.range 1) := by decide
  ⟨hp,
    (C6_determinism 21 1 2 (1 / 2) (fun _ => 0) (fun _ => 0) (fun _ => rfl)
      [0] hp).2.2 10 10⟩

/-! ## Conservation bounds -/

lemma enc_eq_iff {G i : ℕ} {a b a2 b2 : ℤ}
    (_ha : 0 ≤ a) (_ha2 : a < (G : ℤ)) (hb : 0 ≤ b) (hb2 : b < (G : ℤ))
    (hc : 0 ≤ a2) (hc2 : a2 < (G : ℤ)) (hd : 0 ≤ b2) (hd2 : b2 < (G : ℤ)) :
    enc G i a b = enc G i a2 b2 ↔ a = a2 ∧ b = b2 := by
  constructor
  · intro h
    unfold enc at h
    have hG0 : (0 : ℤ) < (G : ℤ) := lt_of_le_of_lt hb hb2
    have h9 : b + (G : ℤ) * a = b2 + (G : ℤ) * a2 := by linarith
    have e1 : (b + (G : ℤ) * a) % (G : ℤ) = b := by
      rw [Int.add_mul_emod_self_left]
      exact Int.emod_eq_of_lt hb hb2
    have e2 : (b2 + (G : ℤ) * a2) % (G : ℤ) = b2 := by
      rw [Int.add_mul_emod_self_left]
      exact Int.emod_eq_of_lt hd hd2
    have hbb : b = b2 := by rw [← e1, h9, e2]
    refine ⟨?_, hbb⟩
    have h10 : (G : ℤ) * a = (G : ℤ) * a2 := by linarith
    exact mul_left_cancel₀ (ne_of_gt hG0) h10
  · rintro ⟨rfl, rfl⟩
    rfl

lemma double_indicator_le_one (G a b : ℕ) :
    (∑ y in Finset.range G, ∑ x in Finset.range G,
      if y = a ∧ x = b then (1 : ℕ) else 0) ≤ 1 := by
  have h1 : ∀ y, (∑ x in Finset.range G, if y = a ∧ x = b then (1 : ℕ) else 0) =
      if y = a then (∑ x in Finset.range G, if x = b then (1 : ℕ) else 0)
      else 0 := by
    intro y
    by_cases hy : y = a
    · subst hy; simp
    · simp [hy]
  rw [Finset.sum_congr rfl fun y _ => h1 y]
  have h2 : (∑ x in Finset.range G, if x = b then (1 : ℕ) else 0) ≤ 1 := by
    rw [Finset.sum_ite_eq' (Finset.range G) b fun _ => 1]
    split <;> omega
  calc (∑ y in Finset.range G,
      if y = a then (∑ x in Finset.range G, if x = b then (1 : ℕ) else 0)
      else 0) ≤
      ∑ y in Finset.range G, if y = a then (1 : ℕ) else 0 := by
        refine Finset.sum_le_sum ?_
        intro y _
        split
        · exact h2
        · exact le_rfl
  _ = if a ∈ Finset.range G then 1 else 0 :=
      Finset.sum_ite_eq' (Finset.range G) a fun _ => 1
  _ ≤ 1 := by split <;> omega

lemma hitInc_slice_sum_le_one {G : ℕ} (i : ℕ) {c : ℤ × ℤ}
    (h0Y : 0 ≤ c.1) (hY : c.1 < (G : ℤ)) (h0X : 0 ≤ c.2)
    (hX : c.2 < (G : ℤ)) :
    (∑ y in Finset.range G, ∑ x in Finset.range G,
      hitInc G i (some c) (enc G i (y : ℤ) (x : ℤ))) ≤ 1 := by
  have key : ∀ y x : ℕ, y < G → x < G →
      hitInc G i (some c) (enc G i (y : ℤ) (x : ℤ)) =
        if y = c.1.toNat ∧ x = c.2.toNat then 1 else 0 := by
    intro y x hy hx
    show (if enc G i c.1 c.2 = enc G i (y : ℤ) (x : ℤ) then (1 : ℕ) else 0) = _
    have hyz : ((y : ℤ) : ℤ) < (G : ℤ) := by exact_mod_cast hy
    have hxz : ((x : ℤ) : ℤ) < (G : ℤ) := by exact_mod_cast hx
    refine if_congr ?_ rfl rfl
    rw [enc_eq_iff h0Y hY h0X hX (Int.natCast_nonneg y) hyz
      (Int.natCast_nonneg x) hxz]
    constructor
    · intro hc
      obtain ⟨hc1, hc2⟩ := hc
      constructor
      · omega
      · omega
    · intro hc
      obtain ⟨hc1, hc2⟩ := hc
      constructor
      · omega
      · omega
  calc (∑ y in Finset.range G, ∑ x in Finset.range G,
      hitInc G i (some c) (enc G i (y : ℤ) (x : ℤ))) =
      ∑ y in Finset.range G, ∑ x in Finset.range G,
        if y = c.1.toNat ∧ x = c.2.toNat then (1 : ℕ) else 0 := by
        refine Finset.sum_congr rfl ?_
        intro y hy
        refine Finset.sum_congr rfl ?_
        intro x hx
        exact key y x (Finset.mem_range.mp hy) (Finset.mem_range.mp hx)
  _ ≤ 1 := double_indicator_le_one G c.1.toNat c.2.toNat

/-- A particle performs at most one increment per iteration in total, over
its entire slice. -/
lemma hitCount_slice_sum_le (G : ℕ) (r : ℚ) (i : ℕ) (d : ℕ → ℚ × ℚ) (n : ℕ)
    (p : ℚ × ℚ) :
    (∑ y in Finset.range G, ∑ x in Finset.range G,
      hitCount G r i d n p (enc G i (y : ℤ) (x : ℤ))) ≤ n := by
  induction n with
  | zero => simp [hitCount]
  | succ n IH =>
      have hsplit : (∑ y in Finset.range G, ∑ x in Finset.range G,
          hitCount G r i d (n + 1) p (enc G i (y : ℤ) (x : ℤ))) =
          (∑ y in Finset.range G, ∑ x in Finset.range G,
            hitCount G r i d n p (enc G i (y : ℤ) (x : ℤ))) +
          (∑ y in Finset.range G, ∑ x in Finset.range G,
            hitInc G i (trajStep G r (d n).1 (d n).2 (posIter G r d n p).1
              (posIter G r d n p).2).2 (enc G i (y : ℤ) (x : ℤ))) := by
        rw [← Finset.sum_add_distrib]
        refine Finset.sum_congr rfl ?_
        intro y _
        rw [← Finset.sum_add_distrib]
        exact Finset.sum_congr rfl fun x _ => rfl
      rw [hsplit]
      have hstep : (∑ y in Finset.range G, ∑ x in Finset.range G,
          hitInc G i (trajStep G r (d n).1 (d n).2 (posIter G r d n p).1
            (posIter G r d n p).2).2 (enc G i (y : ℤ) (x : ℤ))) ≤ 1 := by
        rcases hsnd : (trajStep G r (d n).1 (d n).2 (posIter G r d n p).1
            (posIter G r d n p).2).2 with _ | c
        · simp [hitInc]
        · obtain ⟨h1, h2, h3, h4⟩ := trajStep_hit_bounds hsnd
          exact hitInc_slice_sum_le_one i h1 h2 h3 h4
      exact Nat.add_le_add IH hstep

lemma list_sum_single {l : List ℕ} (hnd : l.Nodup) (f : ℕ → ℕ) (p : ℕ)
    (h0 : ∀ q ∈ l, q ≠ p → f q = 0) :
    (l.map f).sum = if p ∈ l then f p else 0 := by
  induction l with
  | nil => rfl
  | cons a rest IH =>
      rw [List.map_cons, List.sum_cons]
      have hndr := (List.nodup_cons.mp hnd).2
      have hna := (List.nodup_cons.mp hnd).1
      have h0r : ∀ q ∈ rest, q ≠ p → f q = 0 := fun q hq hqp =>
        h0 q (List.mem_cons_of_mem _ hq) hqp
      by_cases hap : a = p
      · subst hap
        rw [IH hndr h0r, if_neg (fun hc => hna hc),
          if_pos (List.mem_cons_self ..), Nat.add_zero]
      · rw [h0 a (List.mem_cons_self ..) hap, Nat.zero_add, IH hndr h0r]
        refine if_congr ?_ rfl rfl
        constructor
        · exact fun h => List.mem_cons_of_mem _ h
        · intro h
          rcases List.mem_cons.mp h with h | h
          · exact absurd h.symm hap
          · exact h

lemma Simulation_map (G : ℕ) (r : ℚ) (nP nIter : ℕ) (s : KState) (j : ℤ) :
    (Simulation G r nP nIter s).map j =
      s.map j + ((List.range nP).map
        (fun ii => particleHits G r nP nIter s ii j)).sum := by
  rw [Simulation, kernelRun_char G r nP nIter _ (List.nodup_range nP) s]

lemma particleHits_le (G : ℕ) (r : ℚ) (nP nIter : ℕ) (s : KState) (ii : ℕ)
    (j : ℤ) : particleHits G r nP nIter s ii j ≤ nIter := by
  rw [particleHits]
  split
  · exact hitCount_le ..
  · exact Nat.zero_le nIter

lemma particleHits_eq_zero_outside {G ii : ℕ} {j : ℤ}
    (h : j < (ii : ℤ) * G * G ∨ ((ii : ℤ) + 1) * G * G ≤ j)
    (r : ℚ) (nP nIter : ℕ) (s : KState) :
    particleHits G r nP nIter s ii j = 0 := by
  rw [particleHits]
  split
  · exact hitCount_eq_zero_outside h ..
  · rfl

/-- The final map value in particle `p`'s slice is `p`'s own hit count,
whatever the launch state. -/
lemma Simulation_map_slice {G p : ℕ} {j : ℤ}
    (hj1 : (p : ℤ) * G * G ≤ j) (hj2 : j < ((p : ℤ) + 1) * G * G)
    (r : ℚ) (nP nIter : ℕ) (s : KState) :
    (Simulation G r nP nIter s).map j =
      s.map j + particleHits G r nP nIter s p j := by
  rw [Simulation_map]
  congr 1
  rw [list_sum_single (List.nodup_range nP) _ p ?h0]
  case h0 =>
    intro q _ hqp
    exact particleHits_eq_zero_outside
      (slice_disjoint (Ne.symm hqp) hj1 hj2) r nP nIter s
  split
  · rfl
  · rename_i hnp
    rw [particleHits, if_neg (fun hc => hnp (List.mem_range.mpr hc))]

/-- Total of the final map over one particle's entire slice is at most the
iteration count. -/
lemma Simulation_slice_total_le (G nP nIter : ℕ) (r : ℚ) (rX rY : ℕ → ℕ)
    (i : ℕ) :
    (∑ v in Finset.range G, ∑ w in Finset.range G,
      (Simulation G r nP nIter (initState rX rY)).map
        (enc G i (v : ℤ) (w : ℤ))) ≤ nIter := by
  have hM : ∀ v w : ℕ, v < G → w < G →
      (Simulation G r nP nIter (initState rX rY)).map
          (enc G i (v : ℤ) (w : ℤ)) =
        particleHits G r nP nIter (initState rX rY) i
          (enc G i (v : ℤ) (w : ℤ)) := by
    intro v w hv hw
    have h1 : (0 : ℤ) ≤ (v : ℤ) := Int.natCast_nonneg v
    have h2 : (v : ℤ) < (G : ℤ) := by exact_mod_cast hv
    have h3 : (0 : ℤ) ≤ (w : ℤ) := Int.natCast_nonneg w
    have h4 : (w : ℤ) < (G : ℤ) := by exact_mod_cast hw
    obtain ⟨hs1, hs2⟩ := enc_mem_slice i h1 h2 h3 h4
    rw [Simulation_map_slice hs1 hs2]
    exact Nat.zero_add _
  rw [Finset.sum_congr rfl fun v hv => Finset.sum_congr rfl fun w hw =>
    hM v w (Finset.mem_range.mp hv) (Finset.mem_range.mp hw)]
  by_cases hi : i < nP
  · have hph : ∀ v w : ℕ,
        particleHits G r nP nIter (initState rX rY) i
            (enc G i (v : ℤ) (w : ℤ)) =
          hitCount G r i (dispSeqOf rX rY nP i) nIter
            ((initState rX rY).particleX i, (initState rX rY).particleY i)
            (enc G i (v : ℤ) (w : ℤ)) := by
      intro v w
      rw [particleHits, if_pos hi]
      rfl
    rw [Finset.sum_congr rfl fun v _ => Finset.sum_congr rfl fun w _ =>
      hph v w]
    exact hitCount_slice_sum_le G r i _ nIter _
  · have hph0 : ∀ v w : ℕ,
        particleHits G r nP nIter (initState rX rY) i
          (enc G i (v : ℤ) (w : ℤ)) = 0 := by
      intro v w
      rw [particleHits, if_neg hi]
    rw [Finset.sum_congr rfl fun v _ => Finset.sum_congr rfl fun w _ =>
      hph0 v w]
    simp

/-- C5: per-particle counts never exceed the iteration count `I`, aggregate
cells never exceed `P·I`, and the total over all aggregate cells is at most
`P·I`. -/
theorem C5_conservation_bounds (G nP nIter : ℕ) (r : ℚ) (stream : ℕ → ℕ)
    (p : ℕ) (j : ℤ) (hj1 : (p : ℤ) * G * G ≤ j)
    (hj2 : j < ((p : ℤ) + 1) * G * G) (y x : ℕ) :
    (Simulation G r nP nIter
        (initState (randomX stream) (randomY stream))).map j ≤ nIter ∧
    motionDevice G nP nIter r stream y x ≤ nP * nIter ∧
    (∑ v in Finset.range G, ∑ w in Finset.range G,
      motionDevice G nP nIter r stream v w) ≤ nP * nIter := by
  refine ⟨?_, ?_, ?_⟩
  · rw [Simulation_map_slice hj1 hj2]
    show 0 + _ ≤ nIter
    rw [Nat.zero_add]
    exact particleHits_le ..
  · rw [motionDevice, reduceAll, reduceRun_apply, Nat.zero_add]
    refine le_trans (List.sum_le_card_nsmul _ nIter ?_) ?_
    · intro v hv
      rw [List.mem_map] at hv
      obtain ⟨i, -, hiv⟩ := hv
      rw [← hiv]
      by_cases hcond : y < G ∧ x < G ∧
          0 < (Simulation G r nP nIter
            (initState (randomX stream) (randomY stream))).map
              (enc G i (y : ℤ) (x : ℤ))
      · rw [if_pos hcond]
        have h1 : (0 : ℤ) ≤ (y : ℤ) := Int.natCast_nonneg y
        have h2 : (y : ℤ) < (G : ℤ) := by exact_mod_cast hcond.1
        have h3 : (0 : ℤ) ≤ (x : ℤ) := Int.natCast_nonneg x
        have h4 : (x : ℤ) < (G : ℤ) := by exact_mod_cast hcond.2.1
        obtain ⟨hs1, hs2⟩ := enc_mem_slice i h1 h2 h3 h4
        rw [Simulation_map_slice hs1 hs2]
        show 0 + _ ≤ nIter
        rw [Nat.zero_add]
        exact particleHits_le ..
      · rw [if_neg hcond]
        exact Nat.zero_le nIter
    · rw [List.length_map, List.length_range, smul_eq_mul]
  · have hcell : ∀ v w : ℕ, motionDevice G nP nIter r stream v w =
        ∑ i in Finset.range nP,
          if v < G ∧ w < G ∧
              0 < (Simulation G r nP nIter
                (initState (randomX stream) (randomY stream))).map
                  (enc G i (v : ℤ) (w : ℤ)) then
            (Simulation G r nP nIter
              (initState (randomX stream) (randomY stream))).map
                (enc G i (v : ℤ) (w : ℤ))
          else 0 := by
      intro v w
      rw [motionDevice, reduceAll, reduceRun_apply, Nat.zero_add,
        list_sum_range]
    calc (∑ v in Finset.range G, ∑ w in Finset.range G,
        motionDevice G nP nIter r stream v w) =
        ∑ v in Finset.range G, ∑ w in Finset.range G,
          ∑ i in Finset.range nP,
            (if v < G ∧ w < G ∧
                0 < (Simulation G r nP nIter
                  (initState (randomX stream) (randomY stream))).map
                    (enc G i (v : ℤ) (w : ℤ)) then
              (Simulation G r nP nIter
                (initState (randomX stream) (randomY stream))).map
                  (enc G i (v : ℤ) (w : ℤ))
            else 0) := by
          exact Finset.sum_congr rfl fun v _ => Finset.sum_congr rfl
            fun w _ => hcell v w
    _ ≤ ∑ v in Finset.range G, ∑ w in Finset.range G,
          ∑ i in Finset.range nP,
            (Simulation G r nP nIter
              (initState (randomX stream) (randomY stream))).map
                (enc G i (v : ℤ) (w : ℤ)) := by
          refine Finset.sum_le_sum fun v _ => Finset.sum_le_sum fun w _ =>
            Finset.sum_le_sum fun i _ => ?_
          split
          · exact le_rfl
          · exact Nat.zero_le _
    _ = ∑ i in Finset.range nP, ∑ v in Finset.range G,
          ∑ w in Finset.range G,
            (Simulation G r nP nIter
              (initState (randomX stream) (randomY stream))).map
                (enc G i (v : ℤ) (w : ℤ)) := by
          rw [Finset.sum_congr rfl fun v _ => Finset.sum_comm]
          exact Finset.sum_comm
    _ ≤ ∑ i in Finset.range nP, nIter :=
          Finset.sum_le_sum fun i _ =>
            Simulation_slice_total_le G nP nIter r
              (randomX stream) (randomY stream) i
    _ = nP * nIter := by
          rw [Finset.sum_const, Finset.card_range, smul_eq_mul]

/-- Concrete instance for C5: the per-particle count at flat index 220 of a
single-particle launch with two iterations is at most 2, and the aggregate
bounds hold at cell (10, 10). -/
theorem C5_conservation_bounds_witness :
    ((0 : ℤ) * 21 * 21 ≤ 220 ∧ (220 : ℤ) < ((0 : ℤ) + 1) * 21 * 21) ∧
    (Simulation 21 (1 / 2) 1 2
        (initState (randomX fun _ => 0) (randomY fun _ => 0))).map 220 ≤ 2 ∧
    motionDevice 21 1 2 (1 / 2) (fun _ => 0) 10 10 ≤ 1 * 2 :=
  have hj1 : (0 : ℤ) * 21 * 21 ≤ 220 := by norm_num
  have hj2 : (220 : ℤ) < ((0 : ℤ) + 1) * 21 * 21 := by norm_num
  ⟨⟨hj1, hj2⟩,
    (C5_conservation_bounds 21 1 2 (1 / 2) (fun _ => 0) 0 220 hj1 hj2
      10 10).1,
    (C5_conservation_bounds 21 1 2 (1 / 2) (fun _ => 0) 0 220 hj1 hj2
      10 10).2.1⟩

/-! ## Stationary particle -/

lemma posIter_zero_disp (G : ℕ) (r : ℚ) (n : ℕ) (p : ℚ × ℚ) :
    posIter G r (fun _ => (0, 0)) n p = p := by
  induction n with
  | zero => rfl
  | succ n IH =>
      rw [posIter_succ, IH]
      show (p.1 + 0, p.2 + 0) = p
      rw [add_zero, add_zero]

/-- A zero-displacement step from an in-grid integer position always hits
the cell `(k, m)`. -/
lemma trajStep_zero {G m k : ℕ} (r : ℚ) (hm : m < G) (hk : k < G) :
    trajStep G r 0 0 (m : ℚ) (k : ℚ) =
      (((m : ℚ), (k : ℚ)), some ((k : ℤ), (m : ℤ))) := by
  have h1 : (m : ℚ) < (G : ℚ) := by exact_mod_cast hm
  have h2 : (k : ℚ) < (G : ℚ) := by exact_mod_cast hk
  have htm : trunc ((m : ℚ) + 0) = (m : ℤ) := by
    rw [add_zero, trunc_of_nonneg (by positivity), Int.floor_natCast]
  have htk : trunc ((k : ℚ) + 0) = (k : ℤ) := by
    rw [add_zero, trunc_of_nonneg (by positivity), Int.floor_natCast]
  show (((m : ℚ) + 0, (k : ℚ) + 0),
      if (m : ℚ) + 0 < (G : ℚ) ∧ (k : ℚ) + 0 < (G : ℚ) ∧
          0 ≤ (m : ℚ) + 0 ∧ 0 ≤ (k : ℚ) + 0 then
        if ((m : ℚ) + 0 - (trunc ((m : ℚ) + 0) : ℚ)) *
              ((m : ℚ) + 0 - (trunc ((m : ℚ) + 0) : ℚ)) +
            ((k : ℚ) + 0 - (trunc ((k : ℚ) + 0) : ℚ)) *
              ((k : ℚ) + 0 - (trunc ((k : ℚ) + 0) : ℚ)) ≤ r * r then
          some (⌊(k : ℚ) + 0⌋, ⌊(m : ℚ) + 0⌋)
        else none
      else none) = _
  rw [htm, htk]
  have hguard : (m : ℚ) + 0 < (G : ℚ) ∧ (k : ℚ) + 0 < (G : ℚ) ∧
      0 ≤ (m : ℚ) + 0 ∧ 0 ≤ (k : ℚ) + 0 := by
    refine ⟨?_, ?_, by positivity, by positivity⟩
    · rw [add_zero]; exact h1
    · rw [add_zero]; exact h2
  have hocc : ((m : ℚ) + 0 - ((m : ℤ) : ℚ)) * ((m : ℚ) + 0 - ((m : ℤ) : ℚ)) +
      ((k : ℚ) + 0 - ((k : ℤ) : ℚ)) * ((k : ℚ) + 0 - ((k : ℤ) : ℚ)) ≤
      r * r := by
    have e1 : (m : ℚ) + 0 - ((m : ℤ) : ℚ) = 0 := by push_cast; ring
    have e2 : (k : ℚ) + 0 - ((k : ℤ) : ℚ) = 0 := by push_cast; ring
    rw [e1, e2]
    have e3 : (0 : ℚ) * 0 + 0 * 0 = 0 := by ring
    rw [e3]
    exact mul_self_nonneg r
  rw [if_pos hguard, if_pos hocc, add_zero, add_zero, Int.floor_natCast,
    Int.floor_natCast]

/-- With all displacements zero from an in-grid integer start, the hit
count after `n` steps is `n` at the start cell and `0` elsewhere. -/
lemma hitCount_zero_disp {G m k : ℕ} (r : ℚ) (ii : ℕ) (hm : m < G)
    (hk : k < G) (n : ℕ) (j : ℤ) :
    hitCount G r ii (fun _ => (0, 0)) n ((m : ℚ), (k : ℚ)) j =
      if enc G ii (k : ℤ) (m : ℤ) = j then n else 0 := by
  induction n with
  | zero => simp [hitCount]
  | succ n IH =>
      show hitCount G r ii (fun _ => (0, 0)) n ((m : ℚ), (k : ℚ)) j +
        hitInc G ii (trajStep G r 0 0
          (posIter G r (fun _ => (0, 0)) n ((m : ℚ), (k : ℚ))).1
          (posIter G r (fun _ => (0, 0)) n ((m : ℚ), (k : ℚ))).2).2 j = _
      rw [IH, posIter_zero_disp]
      show _ + hitInc G ii (trajStep G r 0 0 (m : ℚ) (k : ℚ)).2 j = _
      rw [trajStep_zero r hm hk]
      show _ + (if enc G ii (k : ℤ) (m : ℤ) = j then 1 else 0) = _
      by_cases hj : enc G ii (k : ℤ) (m : ℤ) = j
      · rw [if_pos hj, if_pos hj, if_pos hj]
      · rw [if_neg hj, if_neg hj, if_neg hj]

/-- C9: a particle starting at an integer grid coordinate inside `[0, G)` on
both axes, whose every consumed displacement is `(0, 0)`, with `r ≥ 0` and a
zero-initialized accumulator, ends after `I` iterations with exactly `I` in
its accumulator cell `(k, m)` and `0` everywhere else; in particular the
`G = 21`, `P = 1`, `I = 1`, start `(10, 10)`, `r = 0.5` run reduces to a
grid whose only nonzero cell is row 10, column 10, with value 1. -/
theorem C9_stationary_particle (G nIter : ℕ) (r : ℚ) (ii m k : ℕ)
    (s : KState) (d : ℕ → ℚ × ℚ) (hd : ∀ t, d t = (0, 0))
    (hm : m < G) (hk : k < G) (_hr : 0 ≤ r)
    (hx : s.particleX ii = (m : ℚ)) (hy : s.particleY ii = (k : ℚ))
    (hmap : ∀ j, s.map j = 0) :
    (∀ j : ℤ, (simRunD G r ii d nIter s).map j =
      if j = enc G ii (k : ℤ) (m : ℤ) then nIter else 0) ∧
    (∀ y x : ℕ, y < 21 → x < 21 →
      reduceAll 21
        (simRunD 21 (1 / 2) 0 (fun _ => (0, 0)) 1
          (initState (fun _ => 0) (fun _ => 0))).map 1 (fun _ _ => 0) y x =
        if y = 10 ∧ x = 10 then 1 else 0) := by
  have hdd : d = fun _ => ((0 : ℚ), (0 : ℚ)) := funext hd
  subst hdd
  constructor
  · intro j
    rw [simRunD_char]
    show s.map j + hitCount G r ii (fun _ => (0, 0)) nIter
      (s.particleX ii, s.particleY ii) j = _
    rw [hmap j, hx, hy, Nat.zero_add,
      hitCount_zero_disp r ii hm hk nIter j]
    exact if_congr eq_comm rfl rfl
  · have hM : ∀ j : ℤ,
        (simRunD 21 (1 / 2) 0 (fun _ => (0, 0)) 1
          (initState (fun _ => 0) (fun _ => 0))).map j =
        if j = enc 21 0 (((10 : ℕ)) : ℤ) (((10 : ℕ)) : ℤ) then 1 else 0 := by
      intro j
      rw [simRunD_char]
      show (0 : ℕ) + hitCount 21 (1 / 2) 0 (fun _ => (0, 0)) 1
        ((10 : ℚ), (10 : ℚ)) j = _
      rw [Nat.zero_add]
      have h10 : ((10 : ℚ), (10 : ℚ)) = ((((10 : ℕ)) : ℚ), (((10 : ℕ)) : ℚ)) := by
        norm_num
      rw [h10, hitCount_zero_disp (1 / 2) 0
        (by norm_num : (10 : ℕ) < 21) (by norm_num : (10 : ℕ) < 21) 1 j]
      exact if_congr eq_comm rfl rfl
    intro y x hy21 hx21
    rw [reduceAll, reduceRun_apply, Nat.zero_add,
      show List.range 1 = [0] from rfl,
      List.map_cons, List.map_nil, List.sum_cons, List.sum_nil, Nat.add_zero]
    rw [hM (enc 21 0 (y : ℤ) (x : ℤ))]
    by_cases hyx : y = 10 ∧ x = 10
    · obtain ⟨rfl, rfl⟩ := hyx
      have htrue : enc 21 0 ((10 : ℕ) : ℤ) ((10 : ℕ) : ℤ) =
          enc 21 0 (((10 : ℕ)) : ℤ) (((10 : ℕ)) : ℤ) := rfl
      rw [if_pos htrue,
        if_pos (⟨by norm_num, by norm_num, by norm_num⟩ :
          (10 : ℕ) < 21 ∧ (10 : ℕ) < 21 ∧ 0 < 1),
        if_pos ⟨rfl, rfl⟩]
    · have hyz : (y : ℤ) < (21 : ℤ) := by exact_mod_cast hy21
      have hxz : (x : ℤ) < (21 : ℤ) := by exact_mod_cast hx21
      have hne : ¬ (enc 21 0 (y : ℤ) (x : ℤ) =
          enc 21 0 (((10 : ℕ)) : ℤ) (((10 : ℕ)) : ℤ)) := by
        rw [enc_eq_iff (Int.natCast_nonneg y) hyz (Int.natCast_nonneg x) hxz
          (by norm_num) (by norm_num) (by norm_num) (by norm_num)]
        intro hc
        exact hyx ⟨by exact_mod_cast hc.1, by exact_mod_cast hc.2⟩
      rw [if_neg hne,
        if_neg (fun hc => absurd hc.2.2 (by norm_num)), if_neg hyx]

/-- Concrete instance for C9: with a forced zero displacement sequence and
three iterations, the private accumulator holds 3 at flat index 220; and the
reduced one-iteration grid holds 1 at cell (10, 10). -/
theorem C9_stationary_particle_witness :
    ((10 : ℕ) < 21 ∧ (0 : ℚ) ≤ 1 / 2) ∧
    (simRunD 21 (1 / 2) 0 (fun _ => (0, 0)) 3
        (initState (fun _ => 0) (fun _ => 0))).map 220 =
      (if (220 : ℤ) = enc 21 0 ((10 : ℕ) : ℤ) ((10 : ℕ) : ℤ) then 3 else 0) ∧
    reduceAll 21
        (simRunD 21 (1 / 2) 0 (fun _ => (0, 0)) 1
          (initState (fun _ => 0) (fun _ => 0))).map 1 (fun _ _ => 0) 10 10 =
      (if (10 : ℕ) = 10 ∧ (10 : ℕ) = 10 then 1 else 0) :=
  have h21 : (10 : ℕ) < 21 := by norm_num
  have hr2 : (0 : ℚ) ≤ 1 / 2 := by norm_num
  have happ := C9_stationary_particle 21 3 (1 / 2) 0 10 10
    (initState (fun _ => 0) (fun _ => 0)) (fun _ => (0, 0)) (fun _ => rfl)
    h21 h21 hr2 (by norm_num [initState]) (by norm_num [initState])
    (fun _ => rfl)
  ⟨⟨h21, hr2⟩, happ.1 220, happ.2 10 10 h21 h21⟩

end Motionsim
